import Mathlib

/-!
Verification of the kita embedding service (`src/embedding_service/main.py`)
against its specification.

The service is a thin HTTP layer over an HNSW vector index: endpoints
`embed_text`, `search_files` and `add_file` call into the index library
(`hnswlib.Index`), whose implementation is not part of this repository's
sources.  The index (vector store, distance function, graph search contract,
persistence codec) is therefore modelled from the specification, while the
endpoint glue is translated directly from `main.py`.

Floating-point vectors are modelled as lists of rationals, so that every
definition is executable and every distance computation is exact.
-/

namespace Kita

/-- Dot product of two vectors, over the common prefix (as `zipWith`). -/
def dot (a b : List ℚ) : ℚ :=
  (List.zipWith (· * ·) a b).sum

/-- Squared Euclidean norm of a vector. -/
def sqNorm (a : List ℚ) : ℚ :=
  dot a a

/-- Modelled from the spec: the cosine distance of §4.2
(`1 - dot(a,b)/(|a|*|b|)`, and `1.0` when either vector has zero norm),
as computed inside the `hnswlib` index, which is not part of this
repository's sources.  Since `|a|*|b|` is an irrational square root, the
distance is represented by the strictly monotone rational surrogate
`1 - sign(d) * d^2 / (sqNorm a * sqNorm b)` where `d = dot a b`: it induces
exactly the same ordering of distances, and it coincides with the true
cosine distance at the two exact values the specification singles out
(distance `0`, reached only at cosine similarity `1`, and distance `1`,
reached only at similarity `0` or at a zero-norm argument). -/
def cosDistKey (a b : List ℚ) : ℚ :=
  if sqNorm a = 0 ∨ sqNorm b = 0 then 1
  else if 0 ≤ dot a b then 1 - (dot a b) ^ 2 / (sqNorm a * sqNorm b)
  else 1 + (dot a b) ^ 2 / (sqNorm a * sqNorm b)

/-- Modelled from the spec: the error taxonomy of §7 for the index
operations implemented by the `hnswlib` library (absent from `src/`). -/
inductive IndexError where
  | DimensionMismatch
  | DuplicateId
  | NotFound
  | InvalidK
  | CapacityExceeded
  | CorruptPersistedState
  deriving DecidableEq, Repr

/-- Modelled from the spec: a Vector Store entry of §3 —
`(identifier, vector, tombstone)`.  Identifiers are 64-bit integers
(Python `int` labels in `main.py`), modelled as `Int`. -/
structure Entry where
  id : Int
  vec : List ℚ
  tomb : Bool
  deriving DecidableEq, Repr

/-- Modelled from the spec: the index state of §3 — the configured
dimension `dim`, the capacity bound `max_elements`, and the Vector Store
in insertion order.  This is the state held by the `hnswlib.Index` object
created in `main.py` (`space="cosine"`, `dim`, `max_elements`), whose
implementation is not in this repository's sources. -/
structure Index where
  dim : Nat
  maxElements : Nat
  store : List Entry
  deriving DecidableEq, Repr

/-- Live (non-tombstoned) entries, in insertion order. -/
def liveEntries (ix : Index) : List Entry :=
  ix.store.filter (fun e => !e.tomb)

/-- Modelled from the spec: `count_live()` of §4.1. -/
def countLive (ix : Index) : Nat :=
  (liveEntries ix).length

/-- Whether some live entry already carries identifier `i`. -/
def hasLive (ix : Index) (i : Int) : Bool :=
  ix.store.any (fun e => e.id == i && !e.tomb)

/-- Modelled from the spec: `put(id, vector)` of §4.1 together with the
capacity invariant of §3 — fails with `DimensionMismatch` when the vector
length differs from `dim`, with `DuplicateId` when the identifier already
has a live entry, and with `CapacityExceeded` when the store already holds
`max_elements` entries; otherwise appends a live entry.  This is the store
side of `index.add_items` in `main.py`. -/
def put (ix : Index) (i : Int) (v : List ℚ) : Except IndexError Index :=
  if v.length ≠ ix.dim then .error .DimensionMismatch
  else if hasLive ix i then .error .DuplicateId
  else if ix.maxElements ≤ ix.store.length then .error .CapacityExceeded
  else .ok { ix with store := ix.store ++ [⟨i, v, false⟩] }

/-- Ordering of scored results by (surrogate) distance. -/
def keyLE (p q : Int × ℚ) : Prop :=
  p.2 ≤ q.2

instance : DecidableRel keyLE := fun p q =>
  inferInstanceAs (Decidable (p.2 ≤ q.2))

instance : IsTotal (Int × ℚ) keyLE :=
  ⟨fun p q => le_total p.2 q.2⟩

instance : IsTrans (Int × ℚ) keyLE :=
  ⟨fun _ _ _ h h' => le_trans h h'⟩

/-- Modelled from the spec: the `k`-nearest-neighbour query of §4.3/§4.4
(`index.knn_query` in `main.py`, implemented by `hnswlib` outside this
repository).  The layered beam search is modelled by its specified result
contract (§4.3 search step 3): the returned list holds the `k` closest
live elements, sorted ascending by distance, skipping tombstoned nodes,
with all live nodes returned when fewer than `k` exist; it fails with
`InvalidK` when `k ≤ 0` and with `DimensionMismatch` when the query length
differs from `dim` (§4.4). -/
def search (ix : Index) (q : List ℚ) (k : Int) : Except IndexError (List (Int × ℚ)) :=
  if k ≤ 0 then .error .InvalidK
  else if q.length ≠ ix.dim then .error .DimensionMismatch
  else
    .ok ((List.insertionSort keyLE
      ((liveEntries ix).map (fun e => (e.id, cosDistKey q e.vec)))).take k.toNat)

/-- A token of the persisted binary artifact: each serialized field is a
value written in its own fixed binary format, modelled as a typed token. -/
inductive Tok where
  | nat (n : Nat)
  | int (i : Int)
  | rat (q : ℚ)
  | bool (b : Bool)
  deriving DecidableEq, Repr

/-- Serialization of one Vector Store entry of §4.5:
`(id, tombstone flag, vector bytes)`. -/
def serEntry (e : Entry) : List Tok :=
  .int e.id :: .bool e.tomb :: e.vec.map .rat

/-- Modelled from the spec: the Persistence Codec's serializer of §4.5
(`index.save_index` in `main.py`, implemented by `hnswlib` outside this
repository) — a header holding the configuration and the entry count,
followed by all Vector Store entries. -/
def save (ix : Index) : List Tok :=
  .nat ix.dim :: .nat ix.maxElements :: .nat ix.store.length ::
    (ix.store.map serEntry).flatten

/-- Deserializer for one vector of a known dimension; rejects ill-typed
or truncated input. -/
def readVec : Nat → List Tok → Except IndexError (List ℚ × List Tok)
  | 0, ts => .ok ([], ts)
  | n + 1, .rat q :: ts =>
    match readVec n ts with
    | .ok (v, rest) => .ok (q :: v, rest)
    | .error e => .error e
  | _ + 1, _ => .error .CorruptPersistedState

/-- Deserializer for a counted sequence of Vector Store entries. -/
def readEntries (d : Nat) : Nat → List Tok → Except IndexError (List Entry × List Tok)
  | 0, ts => .ok ([], ts)
  | n + 1, .int i :: .bool b :: ts =>
    match readVec d ts with
    | .error e => .error e
    | .ok (v, rest) =>
      match readEntries d n rest with
      | .error e => .error e
      | .ok (es, rest') => .ok (⟨i, v, b⟩ :: es, rest')
  | _ + 1, _ => .error .CorruptPersistedState

/-- Modelled from the spec: the Persistence Codec's deserializer of §4.5
(`index.load_index` in `main.py`) — rejects truncated or
dimension-inconsistent input with `CorruptPersistedState`, never silently
truncating or padding. -/
def load : List Tok → Except IndexError Index
  | .nat d :: .nat m :: .nat c :: ts =>
    match readEntries d c ts with
    | .error e => .error e
    | .ok (es, rest) =>
      if rest = [] then .ok ⟨d, m, es⟩ else .error .CorruptPersistedState
  | _ => .error .CorruptPersistedState

/-- Well-formedness of an index state: every stored vector has the
configured dimension (§3: `dim` is fixed for the lifetime of the index). -/
def WF (ix : Index) : Bool :=
  ix.store.all (fun e => e.vec.length == ix.dim)

/-- Request body of the `/embed` endpoint (`EmbedRequest` in `main.py`). -/
structure EmbedRequest where
  text : String

/-- Body of the `/add_file` endpoint (`FileData` in `main.py`). -/
structure FileData where
  file_id : Int
  embedding : List ℚ
  deriving DecidableEq, Repr

/-- Request body of the `/search` endpoint (`SearchRequest` in `main.py`);
`k` defaults to 5. -/
structure SearchRequest where
  query : String
  k : Int := 5

/-- Process state of the service: the in-memory index and the bytes
persisted at `INDEX_PATH` (`vector_index.bin`), `none` while no save has
happened. -/
structure ServerState where
  index : Index
  disk : Option (List Tok)
  deriving DecidableEq, Repr

/-- The `/embed` endpoint of `main.py`: rejects empty text with HTTP 400
before touching the model, otherwise returns the model's encoding of the
text.  The sentence-transformer model is the explicit parameter `enc`. -/
def embed_text (enc : String → List ℚ) (r : EmbedRequest) : Except Nat (List ℚ) :=
  if r.text = "" then .error 400 else .ok (enc r.text)

/-- The `/search` endpoint of `main.py`: encodes the query text with the
model and runs `index.knn_query` with the requested `k`. -/
def search_files (enc : String → List ℚ) (st : ServerState) (r : SearchRequest) :
    Except IndexError (List (Int × ℚ)) :=
  search st.index (enc r.query) r.k

/-- The `/add_file` endpoint of `main.py`: `index.add_items` with the
supplied embedding and label, then `index.save_index(INDEX_PATH)`, then
the request body is echoed back.  A failure raises out of the handler, so
the server state is unchanged on error. -/
def add_file (st : ServerState) (f : FileData) :
    ServerState × Except IndexError FileData :=
  match put st.index f.file_id f.embedding with
  | .error e => (st, .error e)
  | .ok ix => ({ index := ix, disk := some (save ix) }, .ok f)


/-- The scored live entries a query is ranked against. -/
def scored (ix : Index) (q : List ℚ) : List (Int × ℚ) :=
  (liveEntries ix).map (fun e => (e.id, cosDistKey q e.vec))

deriving instance DecidableEq for Except

/-! ### Properties of the model -/

theorem dot_nil_left (b : List ℚ) : dot [] b = 0 := rfl

theorem dot_nil_right (a : List ℚ) : dot a [] = 0 := by
  cases a <;> rfl

theorem dot_cons (x y : ℚ) (a b : List ℚ) :
    dot (x :: a) (y :: b) = x * y + dot a b := rfl

theorem dot_self_nonneg (a : List ℚ) : 0 ≤ dot a a := by
  induction a with
  | nil => exact le_refl 0
  | cons x a ih =>
    rw [dot_cons]
    nlinarith [sq_nonneg x]

/-- Auxiliary inequality behind Cauchy–Schwarz, provable by induction with
purely rational arithmetic. -/
theorem two_mul_dot_le (x y : ℚ) (a b : List ℚ) :
    2 * x * y * dot a b ≤ x ^ 2 * sqNorm b + y ^ 2 * sqNorm a := by
  induction a generalizing b with
  | nil =>
    rw [dot_nil_left]
    have hb := dot_self_nonneg b
    simp only [sqNorm, dot_nil_left]
    nlinarith [sq_nonneg x, sq_nonneg y]
  | cons u a ih =>
    cases b with
    | nil =>
      rw [dot_nil_right]
      have ha := dot_self_nonneg (u :: a)
      simp only [sqNorm, dot_nil_left, dot_nil_right]
      nlinarith [sq_nonneg x, sq_nonneg y]
    | cons v b =>
      have h := ih b
      simp only [sqNorm, dot_cons] at h ⊢
      nlinarith [sq_nonneg (x * v - y * u)]

/-- Cauchy–Schwarz for list dot products. -/
theorem dot_sq_le (a b : List ℚ) : (dot a b) ^ 2 ≤ sqNorm a * sqNorm b := by
  induction a generalizing b with
  | nil =>
    rw [dot_nil_left]
    have := dot_self_nonneg b
    simp only [sqNorm, dot_nil_left]
    nlinarith
  | cons x a ih =>
    cases b with
    | nil =>
      rw [dot_nil_right]
      have := dot_self_nonneg (x :: a)
      simp only [sqNorm, dot_nil_right]
      nlinarith
    | cons y b =>
      have h1 := ih b
      have h2 := two_mul_dot_le x y a b
      simp only [sqNorm, dot_cons] at h1 h2 ⊢
      nlinarith

theorem sqNorm_pos_of_ne_zero {a : List ℚ} (h : sqNorm a ≠ 0) : 0 < sqNorm a :=
  lt_of_le_of_ne (dot_self_nonneg a) (Ne.symm h)

/-- The surrogate distance is nonnegative (true cosine distance lies in
`[0, 2]`); this is where Cauchy–Schwarz enters. -/
theorem cosDistKey_nonneg (a b : List ℚ) : 0 ≤ cosDistKey a b := by
  unfold cosDistKey
  split
  · exact zero_le_one
  · rename_i h
    push_neg at h
    have ha := sqNorm_pos_of_ne_zero h.1
    have hb := sqNorm_pos_of_ne_zero h.2
    have hcs := dot_sq_le a b
    have hprod : 0 < sqNorm a * sqNorm b := mul_pos ha hb
    have hle : (dot a b) ^ 2 / (sqNorm a * sqNorm b) ≤ 1 :=
      (div_le_one hprod).mpr hcs
    have hge : 0 ≤ (dot a b) ^ 2 / (sqNorm a * sqNorm b) :=
      div_nonneg (sq_nonneg _) (le_of_lt hprod)
    split <;> linarith

/-- A vector of nonzero norm is at distance `0` from itself. -/
theorem sqNorm_def (a : List ℚ) : sqNorm a = dot a a := rfl

theorem cosDistKey_self {a : List ℚ} (h : sqNorm a ≠ 0) : cosDistKey a a = 0 := by
  have ha := sqNorm_pos_of_ne_zero h
  unfold cosDistKey
  rw [if_neg (by push_neg; exact ⟨h, h⟩), ← sqNorm_def,
    if_pos (le_of_lt ha), sq, div_self (by positivity), sub_self]

/-- When either argument has zero norm the distance is exactly `1`. -/
theorem cosDistKey_zero_norm {a b : List ℚ} (h : sqNorm a = 0 ∨ sqNorm b = 0) :
    cosDistKey a b = 1 := by
  unfold cosDistKey
  rw [if_pos h]

/-- Inverting a successful `put`. -/
theorem put_ok_inv {ix : Index} {i : Int} {v : List ℚ} {ix2 : Index}
    (h : put ix i v = .ok ix2) :
    v.length = ix.dim ∧ hasLive ix i = false ∧ ix.store.length < ix.maxElements ∧
      ix2 = { ix with store := ix.store ++ [⟨i, v, false⟩] } := by
  unfold put at h
  split at h
  · exact absurd h (by simp)
  · split at h
    · exact absurd h (by simp)
    · split at h
      · exact absurd h (by simp)
      · rename_i h1 h2 h3
        refine ⟨by omega, by simpa using h2, by omega, ?_⟩
        exact (Except.ok.injEq _ _).mp h.symm

/-- Inverting a successful `search`: the guards passed and the result is
the sorted prefix of the scored live entries. -/
theorem search_ok_inv {ix : Index} {q : List ℚ} {k : Int} {res : List (Int × ℚ)}
    (h : search ix q k = .ok res) :
    0 < k ∧ q.length = ix.dim ∧
      res = (List.insertionSort keyLE (scored ix q)).take k.toNat := by
  unfold search at h
  split at h
  · exact absurd h (by simp)
  · split at h
    · exact absurd h (by simp)
    · rename_i h1 h2
      refine ⟨by omega, by omega, ?_⟩
      have := (Except.ok.injEq _ _).mp h
      rw [← this]
      rfl

/-- A successful `search` in the positive case. -/
theorem search_eq_ok {ix : Index} {q : List ℚ} {k : Int}
    (hk : 0 < k) (hq : q.length = ix.dim) :
    search ix q k = .ok ((List.insertionSort keyLE (scored ix q)).take k.toNat) := by
  unfold search
  rw [if_neg (by omega), if_neg (by omega)]
  rfl

/-- Membership in the scored list comes from a live store entry. -/
theorem mem_scored {ix : Index} {q : List ℚ} {p : Int × ℚ} :
    p ∈ scored ix q ↔
      ∃ e, e ∈ ix.store ∧ e.tomb = false ∧ p = (e.id, cosDistKey q e.vec) := by
  unfold scored liveEntries
  simp only [List.mem_map, List.mem_filter, Bool.not_eq_eq_eq_not, Bool.not_true]
  constructor
  · rintro ⟨e, ⟨he, ht⟩, rfl⟩
    exact ⟨e, he, ht, rfl⟩
  · rintro ⟨e, he, ht, rfl⟩
    exact ⟨e, ⟨he, ht⟩, rfl⟩

/-- Every score is nonnegative. -/
theorem scored_nonneg {ix : Index} {q : List ℚ} {p : Int × ℚ}
    (h : p ∈ scored ix q) : 0 ≤ p.2 := by
  rcases mem_scored.mp h with ⟨e, _, _, rfl⟩
  exact cosDistKey_nonneg q e.vec

/-- The scored list has exactly one element per live entry. -/
theorem scored_length (ix : Index) (q : List ℚ) :
    (scored ix q).length = countLive ix := by
  unfold scored countLive
  exact List.length_map _ _

/-- When `put` fails, the handler returns the error and the state is
untouched. -/
theorem add_file_error {st : ServerState} {f : FileData} {e : IndexError}
    (h : put st.index f.file_id f.embedding = .error e) :
    add_file st f = (st, .error e) := by
  unfold add_file
  rw [h]

/-! ### Claims -/

/-- C3: on an index state in which `file_id` already has a live entry,
adding it again (with a vector of the configured dimension) fails with
`DuplicateId`, the server state is untouched, and in particular the
store's live count is unchanged. -/
theorem duplicate_add_rejected (st : ServerState) (f : FileData)
    (hdim : f.embedding.length = st.index.dim)
    (hdup : hasLive st.index f.file_id = true) :
    (add_file st f).2 = .error .DuplicateId ∧ (add_file st f).1 = st ∧
      countLive (add_file st f).1.index = countLive st.index := by
  have hput : put st.index f.file_id f.embedding = .error .DuplicateId := by
    unfold put
    rw [if_neg (by omega), if_pos hdup]
  rw [add_file_error hput]
  exact ⟨rfl, rfl, rfl⟩

/-- Witness for C3 at a concrete state. -/
theorem duplicate_add_rejected_witness :
    (add_file ⟨⟨1, 4, [⟨7, [2], false⟩]⟩, none⟩ ⟨7, [5]⟩).2 =
        .error .DuplicateId ∧
      (add_file ⟨⟨1, 4, [⟨7, [2], false⟩]⟩, none⟩ ⟨7, [5]⟩).1 =
        ⟨⟨1, 4, [⟨7, [2], false⟩]⟩, none⟩ ∧
      countLive (add_file ⟨⟨1, 4, [⟨7, [2], false⟩]⟩, none⟩ ⟨7, [5]⟩).1.index =
        countLive (⟨1, 4, [⟨7, [2], false⟩]⟩ : Index) :=
  duplicate_add_rejected ⟨⟨1, 4, [⟨7, [2], false⟩]⟩, none⟩ ⟨7, [5]⟩ (by decide!)
    (by decide!)

/-- C4: adding never grows the store beyond `max_elements`, and an add
attempted when the store already holds `max_elements` entries fails with
an error rather than silently succeeding or growing capacity. -/
theorem capacity_invariant :
    (∀ (st : ServerState) (f : FileData),
        st.index.store.length ≤ st.index.maxElements →
          (add_file st f).1.index.store.length ≤ st.index.maxElements) ∧
      ∀ (ix : Index) (i : Int) (v : List ℚ),
        ix.maxElements ≤ ix.store.length → ∃ e, put ix i v = .error e := by
  constructor
  · intro st f hle
    unfold add_file
    cases hput : put st.index f.file_id f.embedding with
    | error e => exact hle
    | ok ix2 =>
      rcases put_ok_inv hput with ⟨-, -, hlt, rfl⟩
      simp only [List.length_append, List.length_cons, List.length_nil]
      omega
  · intro ix i v hfull
    unfold put
    split
    · exact ⟨_, rfl⟩
    · split
      · exact ⟨_, rfl⟩
      · exact ⟨_, rfl⟩

/-- Witness for C4 at a concrete state and a concrete full store. -/
theorem capacity_invariant_witness :
    (add_file ⟨⟨1, 1, [⟨7, [2], false⟩]⟩, none⟩ ⟨8, [5]⟩).1.index.store.length ≤ 1 ∧
      ∃ e, put ⟨1, 1, [⟨7, [2], false⟩]⟩ 8 [5] = .error e :=
  ⟨capacity_invariant.1 ⟨⟨1, 1, [⟨7, [2], false⟩]⟩, none⟩ ⟨8, [5]⟩ (by decide!),
    capacity_invariant.2 ⟨1, 1, [⟨7, [2], false⟩]⟩ 8 [5] (by decide!)⟩

/-- C5: adding a vector whose length differs from the configured
dimension fails with `DimensionMismatch`; the server state (store and
persisted artifact alike) is unchanged, so the live count is unaffected
and the vector is never padded or truncated to fit. -/
theorem dimension_mismatch_rejected (st : ServerState) (f : FileData)
    (hdim : f.embedding.length ≠ st.index.dim) :
    (add_file st f).2 = .error .DimensionMismatch ∧ (add_file st f).1 = st ∧
      countLive (add_file st f).1.index = countLive st.index := by
  have hput : put st.index f.file_id f.embedding = .error .DimensionMismatch := by
    unfold put
    rw [if_pos hdim]
  rw [add_file_error hput]
  exact ⟨rfl, rfl, rfl⟩

/-- Witness for C5: a length-3 vector against a dim-4 index. -/
theorem dimension_mismatch_rejected_witness :
    (add_file ⟨⟨4, 9, []⟩, none⟩ ⟨1, [1, 2, 3]⟩).2 = .error .DimensionMismatch ∧
      (add_file ⟨⟨4, 9, []⟩, none⟩ ⟨1, [1, 2, 3]⟩).1 = ⟨⟨4, 9, []⟩, none⟩ ∧
      countLive (add_file ⟨⟨4, 9, []⟩, none⟩ ⟨1, [1, 2, 3]⟩).1.index =
        countLive (⟨4, 9, []⟩ : Index) :=
  dimension_mismatch_rejected ⟨⟨4, 9, []⟩, none⟩ ⟨1, [1, 2, 3]⟩ (by decide!)

/-- C9: `/embed` rejects an empty text with HTTP 400 without invoking the
embedding model (the result is the same for every model), and returns the
model's encoding for any non-empty text. -/
theorem embed_empty_text (enc : String → List ℚ) (r : EmbedRequest) :
    (r.text = "" →
        embed_text enc r = .error 400 ∧
          ∀ enc2 : String → List ℚ, embed_text enc2 r = embed_text enc r) ∧
      (r.text ≠ "" → embed_text enc r = .ok (enc r.text)) := by
  constructor
  · intro he
    unfold embed_text
    rw [if_pos he]
    exact ⟨rfl, fun enc2 => by rw [if_pos he]⟩
  · intro hne
    unfold embed_text
    rw [if_neg hne]

/-- Witness for C9 on a concrete empty and non-empty request. -/
theorem embed_empty_text_witness :
    embed_text (fun _ => [1]) ⟨""⟩ = .error 400 ∧
      embed_text (fun _ => [1]) ⟨"hello"⟩ = .ok [1] :=
  ⟨((embed_empty_text (fun _ => [1]) ⟨""⟩).1 rfl).1,
    (embed_empty_text (fun _ => [1]) ⟨"hello"⟩).2 (by decide)⟩

/-- C10: a successful `/add_file` persists the entire updated index at
the persistence path before returning, and echoes back exactly the
`FileData` the caller supplied. -/
theorem add_file_persists_and_echoes (st st2 : ServerState) (f g : FileData)
    (h : add_file st f = (st2, .ok g)) :
    g = f ∧ st2.disk = some (save st2.index) := by
  unfold add_file at h
  cases hput : put st.index f.file_id f.embedding with
  | error e =>
    rw [hput] at h
    exact absurd (congrArg Prod.snd h) (by simp)
  | ok ix2 =>
    rw [hput] at h
    have h1 := congrArg Prod.fst h
    have h2 := congrArg Prod.snd h
    simp only at h1 h2
    have hg : g = f := by
      exact (Except.ok.injEq _ _).mp h2.symm
    refine ⟨hg, ?_⟩
    rw [← h1]

/-- Witness for C10 on a concrete successful add. -/
theorem add_file_persists_and_echoes_witness :
    (⟨5, [3]⟩ : FileData) = ⟨5, [3]⟩ ∧
      (add_file ⟨⟨1, 4, []⟩, none⟩ ⟨5, [3]⟩).1.disk =
        some (save (add_file ⟨⟨1, 4, []⟩, none⟩ ⟨5, [3]⟩).1.index) :=
  add_file_persists_and_echoes ⟨⟨1, 4, []⟩, none⟩ _ ⟨5, [3]⟩ _ (by decide!)

/-- C2: a `/search` whose `k` exceeds the live count succeeds and returns
exactly one result per live element; in particular a search against an
empty index returns the empty ordered list, not an error.  (The query is
the model's encoding of the request text, so it has the index
dimension.) -/
theorem search_more_than_live (enc : String → List ℚ) (st : ServerState)
    (r : SearchRequest) (hdim : (enc r.query).length = st.index.dim)
    (hk : (countLive st.index : Int) < r.k) :
    (∃ res, search_files enc st r = .ok res ∧ res.length = countLive st.index) ∧
      (countLive st.index = 0 → search_files enc st r = .ok []) := by
  have hk0 : 0 < r.k := lt_of_le_of_lt (Int.ofNat_nonneg _) hk
  have hlen : (List.insertionSort keyLE (scored st.index (enc r.query))).length =
      countLive st.index := by
    rw [(List.perm_insertionSort keyLE _).length_eq, scored_length]
  have htake : (List.insertionSort keyLE (scored st.index (enc r.query))).take
      r.k.toNat = List.insertionSort keyLE (scored st.index (enc r.query)) :=
    List.take_of_length_le (by omega)
  unfold search_files
  rw [search_eq_ok hk0 hdim, htake]
  refine ⟨⟨_, rfl, hlen⟩, ?_⟩
  intro h0
  rw [List.length_eq_zero.mp (by omega : (List.insertionSort keyLE
    (scored st.index (enc r.query))).length = 0)]

/-- Witness for C2: empty index, `k = 5`. -/
theorem search_more_than_live_witness :
    search_files (fun _ => [0, 0]) ⟨⟨2, 5, []⟩, none⟩ ⟨"x", 5⟩ = .ok [] :=
  (search_more_than_live (fun _ => [0, 0]) ⟨⟨2, 5, []⟩, none⟩ ⟨"x", 5⟩
    (by decide) (by decide)).2 rfl

/-- C6: every successful search returns a list sorted ascending by
distance whose every element stems from a live (non-tombstoned) store
entry. -/
theorem search_sorted_and_live {ix : Index} {q : List ℚ} {k : Int}
    {res : List (Int × ℚ)} (h : search ix q k = .ok res) :
    List.Sorted keyLE res ∧
      ∀ p ∈ res, ∃ e, e ∈ ix.store ∧ e.tomb = false ∧
        p = (e.id, cosDistKey q e.vec) := by
  rcases search_ok_inv h with ⟨-, -, rfl⟩
  constructor
  · exact List.Pairwise.sublist (List.take_sublist _ _)
      (List.sorted_insertionSort keyLE _)
  · intro p hp
    have hp2 : p ∈ List.insertionSort keyLE (scored ix q) :=
      List.mem_of_mem_take hp
    exact mem_scored.mp ((List.perm_insertionSort keyLE _).mem_iff.mp hp2)

/-- Witness for C6 on a concrete index with a tombstoned entry. -/
theorem search_sorted_and_live_witness :
    List.Sorted keyLE [((1 : Int), (0 : ℚ)), (2, 1)] ∧
      ∀ p ∈ [((1 : Int), (0 : ℚ)), (2, 1)],
        ∃ e, e ∈ (⟨2, 5, [⟨1, [1, 0], false⟩, ⟨2, [0, 1], false⟩,
            ⟨3, [1, 1], true⟩]⟩ : Index).store ∧ e.tomb = false ∧
          p = (e.id, cosDistKey [1, 0] e.vec) :=
  @search_sorted_and_live ⟨2, 5, [⟨1, [1, 0], false⟩, ⟨2, [0, 1], false⟩,
    ⟨3, [1, 1], true⟩]⟩ [1, 0] 5 [((1 : Int), (0 : ℚ)), (2, 1)] (by decide!)

/-- Decoding a serialized vector recovers it and the remaining stream. -/
theorem readVec_roundtrip (v : List ℚ) (ts : List Tok) :
    readVec v.length (v.map Tok.rat ++ ts) = .ok (v, ts) := by
  induction v with
  | nil => rfl
  | cons q v ih =>
    show readVec (v.length + 1) (.rat q :: (v.map Tok.rat ++ ts)) = _
    unfold readVec
    rw [ih]

/-- Decoding a serialized entry sequence recovers it and the remaining
stream, provided every vector has the advertised dimension. -/
theorem readEntries_roundtrip (es : List Entry) (d : Nat) (ts : List Tok)
    (h : ∀ e ∈ es, e.vec.length = d) :
    readEntries d es.length ((es.map serEntry).flatten ++ ts) = .ok (es, ts) := by
  induction es with
  | nil => rfl
  | cons e es ih =>
    have hd : e.vec.length = d := h e (List.mem_cons_self e es)
    have hrest : ∀ x ∈ es, x.vec.length = d := fun x hx =>
      h x (List.mem_cons_of_mem e hx)
    show readEntries d (es.length + 1)
      ((serEntry e :: es.map serEntry).flatten ++ ts) = _
    rw [List.flatten_cons, List.append_assoc]
    show readEntries d (es.length + 1)
      (.int e.id :: .bool e.tomb :: (e.vec.map Tok.rat ++
        ((es.map serEntry).flatten ++ ts))) = _
    unfold readEntries
    rw [← hd, readVec_roundtrip]
    dsimp only
    rw [hd, ih hrest]

/-- Reloading a saved well-formed index reproduces it exactly. -/
theorem load_save {ix : Index} (h : WF ix = true) : load (save ix) = .ok ix := by
  have hwf : ∀ e ∈ ix.store, e.vec.length = ix.dim := by
    intro e he
    have := List.all_eq_true.mp h e he
    exact beq_iff_eq.mp this
  show load (.nat ix.dim :: .nat ix.maxElements :: .nat ix.store.length ::
    (ix.store.map serEntry).flatten) = .ok ix
  unfold load
  dsimp only
  rw [← List.append_nil (ix.store.map serEntry).flatten,
    readEntries_roundtrip ix.store ix.dim [] hwf]
  rfl

/-- C7: `save` then `load` into a fresh instance succeeds on any
well-formed index and yields an index whose every search result is
identical to the original's (same ids, same order, exactly equal
distances). -/
theorem save_load_roundtrip (ix : Index) (h : WF ix = true) :
    ∃ ix2, load (save ix) = .ok ix2 ∧
      ∀ (q : List ℚ) (k : Int), search ix2 q k = search ix q k :=
  ⟨ix, load_save h, fun _ _ => rfl⟩

/-- Witness for C7 on a concrete two-entry index. -/
theorem save_load_roundtrip_witness :
    ∃ ix2, load (save ⟨2, 5, [⟨1, [1, 2], false⟩, ⟨2, [3, 4], true⟩]⟩) =
        .ok ix2 ∧
      ∀ (q : List ℚ) (k : Int),
        search ix2 q k = search ⟨2, 5, [⟨1, [1, 2], false⟩, ⟨2, [3, 4], true⟩]⟩ q k :=
  save_load_roundtrip ⟨2, 5, [⟨1, [1, 2], false⟩, ⟨2, [3, 4], true⟩]⟩ (by decide)

/-- C8 counterexample: the all-zero vector is a finite-valued vector whose
cosine distance to itself is `1`, not `0` — the spec's zero-norm rule
(§4.2) overrides the self-distance rule (§8) here. -/
theorem cosine_self_counterexample :
    cosDistKey [(0 : ℚ)] [(0 : ℚ)] = 1 ∧ ¬ cosDistKey [(0 : ℚ)] [(0 : ℚ)] = 0 := by
  decide!

/-- C8 amended: the cosine distance between a vector of nonzero norm and
itself is `0`, and it is exactly `1.0` (not a division-by-zero failure)
whenever either argument has zero norm. -/
theorem cosine_distance_exact_values :
    (∀ v : List ℚ, sqNorm v ≠ 0 → cosDistKey v v = 0) ∧
      ∀ a b : List ℚ, sqNorm a = 0 ∨ sqNorm b = 0 → cosDistKey a b = 1 :=
  ⟨fun _ h => cosDistKey_self h, fun _ _ h => cosDistKey_zero_norm h⟩

/-- Witness for C8 on concrete vectors. -/
theorem cosine_distance_exact_values_witness :
    cosDistKey [(3 : ℚ), 4] [(3 : ℚ), 4] = 0 ∧
      cosDistKey [(0 : ℚ), 0] [(5 : ℚ), 6] = 1 :=
  ⟨cosine_distance_exact_values.1 [(3 : ℚ), 4] (by decide!),
    cosine_distance_exact_values.2 [(0 : ℚ), 0] [(5 : ℚ), 6] (Or.inl (by decide!))⟩

/-- The head of a sorted nonempty result list has minimal distance. -/
theorem sorted_head_le {hd : Int × ℚ} {tl : List (Int × ℚ)}
    (hs : List.Sorted keyLE (hd :: tl)) :
    ∀ p ∈ hd :: tl, hd.2 ≤ p.2 := by
  intro p hp
  rcases List.mem_cons.mp hp with rfl | hp
  · exact le_refl _
  · exact (List.pairwise_cons.mp hs).1 p hp

/-- C1 counterexample: the all-zero vector `[0]` is a valid vector for a
dim-1 index with a fresh id, yet after adding it, searching for it with
`k = 1` returns it at distance `1`, not approximately `0` (the zero-norm
rule of §4.2 makes its self-distance maximal). -/
theorem add_search_zero_vector_counterexample :
    put ⟨1, 10, []⟩ 7 [0] = .ok ⟨1, 10, [⟨7, [0], false⟩]⟩ ∧
      search ⟨1, 10, [⟨7, [0], false⟩]⟩ [0] 1 = .ok [(7, 1)] ∧
      ((7 : Int), (1 : ℚ)).2 ≠ 0 := by
  decide!

/-- C1 amended: after a successful add of `(i, v)` with `v` of nonzero
norm, `search(v, 1)` returns exactly one result at distance exactly `0`;
and when no other live element lies at distance `0` from `v`, that result
carries the added id `i`. -/
theorem add_then_search_self (ix ix2 : Index) (i : Int) (v : List ℚ)
    (hnz : sqNorm v ≠ 0) (hput : put ix i v = .ok ix2) :
    (∃ p : Int × ℚ, search ix2 v 1 = .ok [p] ∧ p.2 = 0) ∧
      ((∀ e ∈ ix.store, e.tomb = false → cosDistKey v e.vec ≠ 0) →
        search ix2 v 1 = .ok [(i, 0)]) := by
  rcases put_ok_inv hput with ⟨hdim, -, -, rfl⟩
  have hs := @search_eq_ok { ix with store := ix.store ++ [⟨i, v, false⟩] }
    v 1 one_pos hdim
  have hmemnew : ((i, (0 : ℚ))) ∈
      scored { ix with store := ix.store ++ [⟨i, v, false⟩] } v := by
    apply mem_scored.mpr
    refine ⟨⟨i, v, false⟩, ?_, rfl, ?_⟩
    · exact List.mem_append_right _ (List.mem_singleton.mpr rfl)
    · rw [cosDistKey_self hnz]
  have hmemsort : ((i, (0 : ℚ))) ∈ List.insertionSort keyLE
      (scored { ix with store := ix.store ++ [⟨i, v, false⟩] } v) :=
    (List.perm_insertionSort keyLE _).mem_iff.mpr hmemnew
  obtain ⟨hd, tl, hL⟩ : ∃ hd tl, List.insertionSort keyLE
      (scored { ix with store := ix.store ++ [⟨i, v, false⟩] } v) = hd :: tl := by
    cases hcase : List.insertionSort keyLE
        (scored { ix with store := ix.store ++ [⟨i, v, false⟩] } v) with
    | nil =>
      rw [hcase] at hmemsort
      exact absurd hmemsort (List.not_mem_nil _)
    | cons hd tl => exact ⟨hd, tl, rfl⟩
  have hres : search { ix with store := ix.store ++ [⟨i, v, false⟩] } v 1 =
      .ok [hd] := by
    rw [hs, hL]
    rfl
  have hdmem : hd ∈ scored { ix with store := ix.store ++ [⟨i, v, false⟩] } v := by
    apply (List.perm_insertionSort keyLE _).mem_iff.mp
    rw [hL]
    exact List.mem_cons_self hd tl
  have hge : 0 ≤ hd.2 := scored_nonneg hdmem
  have hle : hd.2 ≤ 0 := by
    have hsorted := List.sorted_insertionSort keyLE
      (scored { ix with store := ix.store ++ [⟨i, v, false⟩] } v)
    rw [hL] at hsorted hmemsort
    exact sorted_head_le hsorted (i, (0 : ℚ)) hmemsort
  have hd2 : hd.2 = 0 := le_antisymm hle hge
  constructor
  · exact ⟨hd, hres, hd2⟩
  · intro huniq
    rcases mem_scored.mp hdmem with ⟨e, hestore, htomb, hdeq⟩
    have hestore2 : e ∈ ix.store ++ [⟨i, v, false⟩] := hestore
    rcases List.mem_append.mp hestore2 with hold | hnew
    · exfalso
      apply huniq e hold htomb
      rw [hdeq] at hd2
      exact hd2
    · have he : e = ⟨i, v, false⟩ := List.mem_singleton.mp hnew
      subst he
      rw [hdeq] at hres
      simpa [cosDistKey_self hnz] using hres

/-- Witness for C1 at a concrete one-element index. -/
theorem add_then_search_self_witness :
    search ⟨1, 10, [⟨7, [1], false⟩]⟩ [1] 1 = .ok [(7, 0)] :=
  (add_then_search_self ⟨1, 10, []⟩ ⟨1, 10, [⟨7, [1], false⟩]⟩ 7 [1]
      (by decide!) (by decide!)).2
    (fun e he => absurd he (List.not_mem_nil e))

end Kita
